import Mathlib

/-!
Verification of the `rust-expr-evaluator` pipeline (lexer → recursive-descent
parser → tree-walking evaluator).  Every definition below is a shallow
embedding of the corresponding Rust item in `src/`; doc comments name the
source location.  Machine floating-point (`f64`) is modelled by the type `F`
below: finite values are carried as exact fractions (integer numerator over a
positive denominator, never normalised so that every operation is plain
integer arithmetic and kernel-computable), and the special values `-0.0`,
`+∞`, `-∞`, `NaN` are explicit constructors.  Results whose exact magnitude
exceeds the largest finite `f64` round to the corresponding infinity, exactly
as IEEE-754 round-to-nearest does there; in-range finite results are kept
exact (rounding of in-range results is immaterial to every statement proved
in this file, which only exercises values that `f64` represents exactly).
-/

deriving instance DecidableEq for Except

namespace ExprEval

/-- A finite floating-point magnitude, as an unnormalised fraction
`num / den`.  Every constructor and operation in this file keeps `den > 0`;
value comparisons are done by cross-multiplication, so normalisation is never
needed. -/
structure Frac where
  num : Int
  den : Int
deriving DecidableEq

/-- Numerator of `f64::MAX` (its denominator is 1), written as a decimal
numeral so that the kernel computes with it directly.  Its value is
`(2^53 - 1) * 2^971`, checked by the theorem `maxFiniteNum_eq` below. -/
def maxFiniteNum : Int := 179769313486231570814527423731704356798070567525844996598917476803157260780028538760589558632766878171540458953514382464234321326889464182768467546703537516986049910576551282076245490090389328944075868508455133942304583236903222948165808559332123348274797826204144723168738177180919299881250404026184124858368

/-- Model of an `f64` value. `finite ⟨0, d⟩` is `+0.0`; `-0.0` is the separate
constructor `negZero`. -/
inductive F where
  | finite (q : Frac)
  | negZero
  | posInf
  | negInf
  | nan
deriving DecidableEq

/-- The `f64` value `+0.0`. -/
def F.zero : F := .finite ⟨0, 1⟩

/-- Whether the fraction denotes a negative value (`den` is kept positive). -/
def Frac.isNeg (q : Frac) : Bool := q.num < 0

/-- Sign-normalise a fraction so that its denominator is positive. -/
def Frac.mkSign (q : Frac) : Frac := if q.den < 0 then ⟨-q.num, -q.den⟩ else q

/-- Overflow step of IEEE-754 arithmetic: an exact result whose magnitude
exceeds `f64::MAX` becomes the corresponding infinity; in-range results stay
exact (see the file header). -/
def roundF (q : Frac) : F :=
  if maxFiniteNum * q.den < q.num then F.posInf
  else if q.num < -(maxFiniteNum * q.den) then F.negInf
  else F.finite q

/-- Sign bit of an `f64` (`true` = negative).  The sign bit of `NaN` is taken
positive; it is never inspected by the evaluator (`is_sign_positive` is only
reached on infinite values, see `Expr.check_result`). -/
def F.signBit : F → Bool
  | .finite q => q.isNeg
  | .negZero => true
  | .posInf => false
  | .negInf => true
  | .nan => false

/-- Model of `f64::is_infinite`. -/
def F.isInfinite : F → Bool
  | .posInf => true
  | .negInf => true
  | _ => false

/-- Model of `f64::is_sign_positive`. -/
def F.isSignPositive (x : F) : Bool := !x.signBit

/-- Whether the value is a zero (of either sign). -/
def F.isZeroMag : F → Bool
  | .finite q => q.num = 0
  | .negZero => true
  | _ => false

/-- The zero of the given sign. -/
def zeroWithSign (neg : Bool) : F := if neg then F.negZero else F.finite ⟨0, 1⟩

/-- The infinity of the given sign. -/
def infWithSign (neg : Bool) : F := if neg then F.negInf else F.posInf

/-- Model of `f64` negation (the unary `-` in `Expr::eval`'s `Neg` arm).
IEEE-754 negation flips the sign bit, so `-(+0.0) = -0.0` and vice versa. -/
def F.fneg : F → F
  | .finite q => if q.num = 0 then F.negZero else .finite ⟨-q.num, q.den⟩
  | .negZero => .finite ⟨0, 1⟩
  | .posInf => F.negInf
  | .negInf => F.posInf
  | .nan => F.nan

/-- Model of `f64` addition.  `∞ + (-∞) = NaN`; a zero of either sign is an
additive identity except that `-0.0 + -0.0 = -0.0`; an exact finite sum that
overflows rounds to infinity. -/
def F.fadd : F → F → F
  | .nan, _ => .nan
  | _, .nan => .nan
  | .posInf, .negInf => .nan
  | .negInf, .posInf => .nan
  | .posInf, _ => .posInf
  | _, .posInf => .posInf
  | .negInf, _ => .negInf
  | _, .negInf => .negInf
  | .negZero, .negZero => .negZero
  | .negZero, .finite q => .finite q
  | .finite q, .negZero => .finite q
  | .finite a, .finite b => roundF ⟨a.num * b.den + b.num * a.den, a.den * b.den⟩

/-- Model of `f64` subtraction; IEEE-754 subtraction coincides with adding the
negated operand (including for signed zeros). -/
def F.fsub (x y : F) : F := x.fadd y.fneg

/-- Model of `f64` multiplication: `NaN` propagates, `0 * ∞ = NaN`, otherwise
infinities and zeros carry the XOR of the operand signs, and exact finite
products overflow to infinity past `f64::MAX`. -/
def F.fmul (x y : F) : F :=
  if x = F.nan ∨ y = F.nan then F.nan
  else if x.isInfinite ∨ y.isInfinite then
    if x.isZeroMag ∨ y.isZeroMag then F.nan
    else infWithSign (xor x.signBit y.signBit)
  else
    match x, y with
    | .finite a, .finite b =>
        if a.num * b.num = 0 then zeroWithSign (xor a.isNeg b.isNeg)
        else roundF ⟨a.num * b.num, a.den * b.den⟩
    | _, _ => zeroWithSign (xor x.signBit y.signBit)

/-- Model of `f64` division: `NaN` propagates, `∞/∞` and `0/0` are `NaN`,
`x/∞` is a signed zero, `x/0` is a signed infinity (the evaluator's
division-by-zero guard makes that branch unreachable from `Expr::eval`), and
finite quotients are exact with overflow to infinity. -/
def F.fdiv (x y : F) : F :=
  if x = F.nan ∨ y = F.nan then F.nan
  else if x.isInfinite then
    if y.isInfinite then F.nan else infWithSign (xor x.signBit y.signBit)
  else if y.isInfinite then zeroWithSign (xor x.signBit y.signBit)
  else if y.isZeroMag then
    if x.isZeroMag then F.nan else infWithSign (xor x.signBit y.signBit)
  else
    match x, y with
    | .finite a, .finite b =>
        if a.num = 0 then zeroWithSign (xor a.isNeg b.isNeg)
        else roundF (Frac.mkSign ⟨a.num * b.den, a.den * b.num⟩)
    | _, .finite b => zeroWithSign (xor true b.isNeg)
    | _, _ => F.nan

/-- Raise a finite fraction to an integer power (exact, with overflow to
infinity; `0` to a negative power is `+∞` as in IEEE-754 `powf`). -/
def intPow (q : Frac) (e : Int) : F :=
  if 0 ≤ e then roundF ⟨q.num ^ e.toNat, q.den ^ e.toNat⟩
  else if q.num = 0 then F.posInf
  else roundF (Frac.mkSign ⟨q.den ^ (-e).toNat, q.num ^ (-e).toNat⟩)

/-- Model of `f64::powf` (the `Pow` arm of `Expr::eval`).  `powf(x, ±0) = 1`
for every `x` (even `NaN`), `NaN` otherwise propagates, and finite bases with
integer exponents are exact.  The remaining cases (non-integer exponents,
infinite operands) are not modelled beyond `NaN`: `Pow` nodes are unreachable
from the parser (proved below for claim C5), so no theorem in this file
depends on this function. -/
def F.fpow (x y : F) : F :=
  if y.isZeroMag then F.finite ⟨1, 1⟩
  else if x = F.nan ∨ y = F.nan then F.nan
  else
    match x, y with
    | .finite a, .finite b =>
        if b.num % b.den = 0 then intPow a (b.num / b.den) else F.nan
    | _, _ => F.nan

/-- Model of the `f64` `==` comparison (`PartialEq`): `NaN` is unequal to
everything including itself, `-0.0 == +0.0`, and finite values compare by
value (cross-multiplication, denominators being positive). -/
def F.ieeeEq : F → F → Bool
  | .nan, _ => false
  | _, .nan => false
  | .posInf, .posInf => true
  | .negInf, .negInf => true
  | .negZero, .negZero => true
  | .negZero, .finite q => q.num = 0
  | .finite q, .negZero => q.num = 0
  | .finite a, .finite b => a.num * b.den = b.num * a.den
  | _, _ => false

/-- Error kind of `src/error.rs`: `EvalError`. -/
inductive EvalError where
  | DivisionByZero
  | Overflow
  | Underflow
deriving DecidableEq

/-- The expression tree of `src/ast.rs` (`enum Expr`); boxed children are
plain subterms here. -/
inductive Expr where
  | Number (n : F)
  | Add (a b : Expr)
  | Sub (a b : Expr)
  | Mul (a b : Expr)
  | Div (a b : Expr)
  | Neg (a : Expr)
  | Pow (a b : Expr)
deriving DecidableEq

/-- Constructor helper `Expr::number`. -/
def Expr.number (n : F) : Expr := .Number n

/-- Constructor helper `Expr::add`. -/
def Expr.add (a b : Expr) : Expr := .Add a b

/-- Constructor helper `Expr::sub`. -/
def Expr.sub (a b : Expr) : Expr := .Sub a b

/-- Constructor helper `Expr::mul`. -/
def Expr.mul (a b : Expr) : Expr := .Mul a b

/-- Constructor helper `Expr::div`. -/
def Expr.div (a b : Expr) : Expr := .Div a b

/-- Constructor helper `Expr::neg`. -/
def Expr.neg (a : Expr) : Expr := .Neg a

/-- Constructor helper `Expr::pow`. -/
def Expr.pow (a b : Expr) : Expr := .Pow a b

/-- `Expr::check_result` of `src/ast.rs`: positive infinity is an `Overflow`
error, negative infinity an `Underflow` error, anything else (including `NaN`)
passes through. -/
def Expr.check_result (result : F) : Except EvalError F :=
  if result.isInfinite then
    if result.isSignPositive then .error .Overflow else .error .Underflow
  else .ok result

/-- `Expr::eval` of `src/ast.rs`.  Operands evaluate left before right except
`Div`, which evaluates the divisor first and fails with `DivisionByZero`
before touching the dividend when the divisor compares `== 0.0`. -/
def Expr.eval : Expr → Except EvalError F
  | .Number n => .ok n
  | .Add a b => do Expr.check_result ((← a.eval).fadd (← b.eval))
  | .Sub a b => do Expr.check_result ((← a.eval).fsub (← b.eval))
  | .Mul a b => do Expr.check_result ((← a.eval).fmul (← b.eval))
  | .Div a b => do
      let divisor ← b.eval
      if divisor.ieeeEq F.zero then .error .DivisionByZero
      else do
        let x ← a.eval
        Expr.check_result (x.fdiv divisor)
  | .Neg a => do Expr.check_result (← a.eval).fneg
  | .Pow a b => do Expr.check_result ((← a.eval).fpow (← b.eval))

/-- Whether an expression tree contains no `Pow` node. -/
def Expr.powFree : Expr → Bool
  | .Number _ => true
  | .Add a b => a.powFree && b.powFree
  | .Sub a b => a.powFree && b.powFree
  | .Mul a b => a.powFree && b.powFree
  | .Div a b => a.powFree && b.powFree
  | .Neg a => a.powFree
  | .Pow _ _ => false

/-- Source location (`src/error.rs`): 1-based line and column. -/
structure Location where
  line : Nat
  column : Nat
deriving DecidableEq

/-- `LexerError` of `src/error.rs`. -/
structure LexerError where
  message : String
  location : Location
deriving DecidableEq

/-- `ParseError` of `src/error.rs`. -/
structure ParseError where
  message : String
  location : Location
deriving DecidableEq

/-- `ParseError::from_lexer_error` (also the `From<LexerError>` impl):
message and location are preserved. -/
def ParseError.from_lexer_error (e : LexerError) : ParseError := ⟨e.message, e.location⟩

/-- `Token` of `src/token.rs`. -/
inductive Token where
  | Number (n : F)
  | Plus
  | Minus
  | Star
  | Slash
  | LeftParen
  | RightParen
  | Eof
deriving DecidableEq

/-- Rendering of a model `f64` as Rust's `{:?}` prints it in parser error
messages (e.g. `2.0`).  Only integer-valued literals reach the messages the
theorems below assert, so non-integer fractions are rendered loosely as
`num/den`. -/
def F.debugStr : F → String
  | .finite q =>
      if q.den = 1 then toString q.num ++ ".0"
      else toString q.num ++ "/" ++ toString q.den
  | .negZero => "-0.0"
  | .posInf => "inf"
  | .negInf => "-inf"
  | .nan => "NaN"

/-- Rendering of a token as Rust's `{:?}` prints it (`format!` in
`Parser::expect_and_advance` and `Parser::parse`). -/
def Token.debugStr : Token → String
  | .Number n => "Number(" ++ n.debugStr ++ ")"
  | .Plus => "Plus"
  | .Minus => "Minus"
  | .Star => "Star"
  | .Slash => "Slash"
  | .LeftParen => "LeftParen"
  | .RightParen => "RightParen"
  | .Eof => "Eof"

/-- The `std::mem::discriminant` comparison of `Parser::check`: token kinds
match, ignoring any carried numeric value. -/
def Token.kindEq : Token → Token → Bool
  | .Number _, .Number _ => true
  | .Plus, .Plus => true
  | .Minus, .Minus => true
  | .Star, .Star => true
  | .Slash, .Slash => true
  | .LeftParen, .LeftParen => true
  | .RightParen, .RightParen => true
  | .Eof, .Eof => true
  | _, _ => false

/-- Rust's `char::is_whitespace`: the Unicode `White_Space` property. -/
def isRustWhitespace (c : Char) : Bool :=
  [' ', '\t', '\n', Char.ofNat 0x0B, Char.ofNat 0x0C, '\r',
   Char.ofNat 0x85, Char.ofNat 0xA0, Char.ofNat 0x1680,
   Char.ofNat 0x2000, Char.ofNat 0x2001, Char.ofNat 0x2002, Char.ofNat 0x2003,
   Char.ofNat 0x2004, Char.ofNat 0x2005, Char.ofNat 0x2006, Char.ofNat 0x2007,
   Char.ofNat 0x2008, Char.ofNat 0x2009, Char.ofNat 0x200A,
   Char.ofNat 0x2028, Char.ofNat 0x2029, Char.ofNat 0x202F, Char.ofNat 0x205F,
   Char.ofNat 0x3000].contains c

/-- Per-character position update of `Lexer::advance_char`: a newline starts
a new line at column 1, any other character advances the column by 1. -/
def advancePos (line column : Nat) (c : Char) : Nat × Nat :=
  if c = '\n' then (line + 1, 1) else (line, column + 1)

/-- The lexer state of `src/lexer.rs`: the remaining characters (Rust's
`Peekable<Chars>` cursor) and the current 1-based position. -/
structure Lexer where
  chars : List Char
  line : Nat
  column : Nat
deriving DecidableEq

/-- `Lexer::new`. -/
def Lexer.new (input : String) : Lexer := ⟨input.toList, 1, 1⟩

/-- `Lexer::location`. -/
def Lexer.location (l : Lexer) : Location := ⟨l.line, l.column⟩

/-- `Lexer::advance_char`. -/
def Lexer.advance_char (l : Lexer) : Option Char × Lexer :=
  match l.chars with
  | [] => (none, l)
  | c :: rest =>
      (some c, ⟨rest, (advancePos l.line l.column c).1, (advancePos l.line l.column c).2⟩)

/-- The loop of `Lexer::skip_whitespace`, written as structural recursion
over the remaining characters; each step performs one `advance_char` position
update. -/
def skipWsAux : List Char → Nat → Nat → Lexer
  | [], line, column => ⟨[], line, column⟩
  | c :: rest, line, column =>
      if isRustWhitespace c then
        skipWsAux rest (advancePos line column c).1 (advancePos line column c).2
      else ⟨c :: rest, line, column⟩

/-- `Lexer::skip_whitespace`. -/
def Lexer.skip_whitespace (l : Lexer) : Lexer := skipWsAux l.chars l.line l.column

/-- The two digit-reading loops of `Lexer::read_number`: consume leading
ASCII digits, returning them together with the state after them. -/
def readDigitsAux : List Char → Nat → Nat → List Char × Lexer
  | [], line, column => ([], ⟨[], line, column⟩)
  | c :: rest, line, column =>
      if c.isDigit then
        let r := readDigitsAux rest (advancePos line column c).1 (advancePos line column c).2
        (c :: r.1, r.2)
      else ([], ⟨c :: rest, line, column⟩)

/-- Numeric value of a string of ASCII digits. -/
def digitsToNat (ds : List Char) : Nat := ds.foldl (fun acc c => 10 * acc + (c.toNat - 48)) 0

/-- Value of the literal `intDs "." fracDs`, as an exact fraction.  This
models the `num_str.parse::<f64>()` call of `Lexer::read_number`; Rust's
`parse` rounds to the nearest double, which coincides with the exact value
for every literal exercised by a theorem in this file.  The parse-failure arm
of `read_number` ("Invalid number: …") is unreachable: the string built there
is always digits with at most one interior dot, which `parse` accepts. -/
def fracOfDigits (intDs fracDs : List Char) : Frac :=
  ⟨Int.ofNat (digitsToNat intDs * 10 ^ fracDs.length + digitsToNat fracDs),
    Int.ofNat (10 ^ fracDs.length)⟩

/-- `Lexer::read_number`: the integer digits, then an optional `.` which must
be followed by at least one digit — otherwise the "Expected digits after
decimal point" error at the location where the literal began. -/
def Lexer.read_number (l : Lexer) : Except LexerError (F × Lexer) :=
  let start_location := l.location
  let ri := readDigitsAux l.chars l.line l.column
  match ri.2.chars with
  | '.' :: rest =>
      let pos := advancePos ri.2.line ri.2.column '.'
      let rf := readDigitsAux rest pos.1 pos.2
      if rf.1.isEmpty then
        .error ⟨"Expected digits after decimal point", start_location⟩
      else .ok (F.finite (fracOfDigits ri.1 rf.1), rf.2)
  | _ => .ok (F.finite (fracOfDigits ri.1 []), ri.2)

/-- The apostrophe character, used in the lexer's error message. -/
def squote : Char := Char.ofNat 39

/-- The message `Unexpected character: '<c>'` of `Lexer::next_token`. -/
def unexpectedCharMsg (c : Char) : String :=
  "Unexpected character: " ++ String.singleton squote ++ String.singleton c
    ++ String.singleton squote

/-- `Lexer::next_token`: skip whitespace, record the location, then classify
the next character. -/
def Lexer.next_token (l : Lexer) : Except LexerError ((Token × Location) × Lexer) :=
  let l1 := l.skip_whitespace
  let location := l1.location
  match l1.chars with
  | [] => .ok ((.Eof, location), l1)
  | c :: rest =>
      let consume1 : Lexer :=
        ⟨rest, (advancePos l1.line l1.column c).1, (advancePos l1.line l1.column c).2⟩
      if '0' ≤ c ∧ c ≤ '9' then
        match l1.read_number with
        | .error e => .error e
        | .ok (v, l2) => .ok ((.Number v, location), l2)
      else if c = '+' then .ok ((.Plus, location), consume1)
      else if c = '-' then .ok ((.Minus, location), consume1)
      else if c = '*' then .ok ((.Star, location), consume1)
      else if c = '/' then .ok ((.Slash, location), consume1)
      else if c = '(' then .ok ((.LeftParen, location), consume1)
      else if c = ')' then .ok ((.RightParen, location), consume1)
      else .error ⟨unexpectedCharMsg c, location⟩

/-- Iterate `next_token` (0-based): the result of the (n+1)-st call, as the
driver or a test observes the token stream. -/
def nthNext : Nat → Lexer → Except LexerError ((Token × Location) × Lexer)
  | 0, l => l.next_token
  | n + 1, l =>
      match l.next_token with
      | .error e => .error e
      | .ok (_, l') => nthNext n l'

/-- The parser state of `src/parser.rs`: the wrapped lexer, the lookahead
token, and the location the parser has recorded for it.  The source lexer's
`next_token` returns a `(token, location)` pair; the parser's field `current`
holds only the token, and `current_location` is the lexer position read
*before* fetching it (`Parser::advance` reads `self.lexer.location()` first),
i.e. the position right after the previous token, before any whitespace in
front of the fetched token. -/
structure Parser where
  lexer : Lexer
  current : Token
  current_location : Location
deriving DecidableEq

/-- `Parser::new`: prime the lookahead with the first token; the recorded
location is the initial position (1, 1), read before lexing. -/
def Parser.new (input : String) : Except LexerError Parser :=
  let lexer := Lexer.new input
  let location := lexer.location
  match lexer.next_token with
  | .error e => .error e
  | .ok ((tok, _), lexer') => .ok ⟨lexer', tok, location⟩

/-- `Parser::advance`. -/
def Parser.advance (p : Parser) : Except ParseError (Token × Parser) :=
  let prev := p.current
  let current_location := p.lexer.location
  match p.lexer.next_token with
  | .error e => .error (ParseError.from_lexer_error e)
  | .ok ((tok, _), lexer') => .ok (prev, ⟨lexer', tok, current_location⟩)

/-- `Parser::check`. -/
def Parser.check (p : Parser) (expected : Token) : Bool := p.current.kindEq expected

/-- `Parser::expect_and_advance`. -/
def Parser.expect_and_advance (p : Parser) (expected : Token) :
    Except ParseError (Unit × Parser) :=
  if p.check expected then
    match p.advance with
    | .error e => .error e
    | .ok (_, p') => .ok ((), p')
  else
    .error ⟨"Expected " ++ expected.debugStr ++ ", got " ++ p.current.debugStr,
      p.current_location⟩

/-- The recursive-descent productions of `src/parser.rs`, defunctionalised:
one tag per source function (`expression`, `term`, `unary`, `primary`) plus
one per binary-operator loop, carrying the accumulated left operand. -/
inductive PMode where
  | expressionM
  | exprLoopM (left : Expr)
  | termM
  | termLoopM (left : Expr)
  | unaryM
  | primaryM

/-- The mutually recursive parser productions of `src/parser.rs`, as a single
function structurally recursive on a fuel argument bounding recursion depth
(so that concrete runs reduce inside the kernel).  Each mode transcribes the
body of the corresponding source function; `none` means the fuel ran out,
which never happens at the bound `defaultFuel` supplies. -/
def runGrammar : Nat → PMode → Parser → Option (Except ParseError (Expr × Parser))
  | 0, _, _ => none
  | fuel + 1, mode, p =>
    match mode with
    | .expressionM =>
        match runGrammar fuel .termM p with
        | none => none
        | some (.error e) => some (.error e)
        | some (.ok (left, p1)) => runGrammar fuel (.exprLoopM left) p1
    | .exprLoopM left =>
        match p.current with
        | .Plus =>
            match p.advance with
            | .error e => some (.error e)
            | .ok (_, p1) =>
                match runGrammar fuel .termM p1 with
                | none => none
                | some (.error e) => some (.error e)
                | some (.ok (right, p2)) =>
                    runGrammar fuel (.exprLoopM (Expr.add left right)) p2
        | .Minus =>
            match p.advance with
            | .error e => some (.error e)
            | .ok (_, p1) =>
                match runGrammar fuel .termM p1 with
                | none => none
                | some (.error e) => some (.error e)
                | some (.ok (right, p2)) =>
                    runGrammar fuel (.exprLoopM (Expr.sub left right)) p2
        | _ => some (.ok (left, p))
    | .termM =>
        match runGrammar fuel .unaryM p with
        | none => none
        | some (.error e) => some (.error e)
        | some (.ok (u, p1)) => runGrammar fuel (.termLoopM u) p1
    | .termLoopM left =>
        match p.current with
        | .Star =>
            match p.advance with
            | .error e => some (.error e)
            | .ok (_, p1) =>
                match runGrammar fuel .unaryM p1 with
                | none => none
                | some (.error e) => some (.error e)
                | some (.ok (right, p2)) =>
                    runGrammar fuel (.termLoopM (Expr.mul left right)) p2
        | .Slash =>
            match p.advance with
            | .error e => some (.error e)
            | .ok (_, p1) =>
                match runGrammar fuel .unaryM p1 with
                | none => none
                | some (.error e) => some (.error e)
                | some (.ok (right, p2)) =>
                    runGrammar fuel (.termLoopM (Expr.div left right)) p2
        | _ => some (.ok (left, p))
    | .unaryM =>
        if p.current = Token.Minus then
          match p.advance with
          | .error e => some (.error e)
          | .ok (_, p1) =>
              match runGrammar fuel .unaryM p1 with
              | none => none
              | some (.error e) => some (.error e)
              | some (.ok (e, p2)) => some (.ok (Expr.neg e, p2))
        else runGrammar fuel .primaryM p
    | .primaryM =>
        match p.current with
        | .Number n =>
            match p.advance with
            | .error e => some (.error e)
            | .ok (_, p1) => some (.ok (Expr.number n, p1))
        | .LeftParen =>
            match p.advance with
            | .error e => some (.error e)
            | .ok (_, p1) =>
                match runGrammar fuel .expressionM p1 with
                | none => none
                | some (.error e) => some (.error e)
                | some (.ok (e, p2)) =>
                    match p2.expect_and_advance Token.RightParen with
                    | .error e2 => some (.error e2)
                    | .ok (_, p3) => some (.ok (e, p3))
        | _ =>
            some (.error ⟨"Expected expression, got " ++ p.current.debugStr,
              p.current_location⟩)

/-- `Parser::expression` (fuelled). -/
def Parser.expression (fuel : Nat) (p : Parser) : Option (Except ParseError (Expr × Parser)) :=
  runGrammar fuel .expressionM p

/-- `Parser::term` (fuelled). -/
def Parser.term (fuel : Nat) (p : Parser) : Option (Except ParseError (Expr × Parser)) :=
  runGrammar fuel .termM p

/-- `Parser::unary` (fuelled). -/
def Parser.unary (fuel : Nat) (p : Parser) : Option (Except ParseError (Expr × Parser)) :=
  runGrammar fuel .unaryM p

/-- `Parser::primary` (fuelled). -/
def Parser.primary (fuel : Nat) (p : Parser) : Option (Except ParseError (Expr × Parser)) :=
  runGrammar fuel .primaryM p

/-- `Parser::parse`: one full expression, after which the lookahead must be
`Eof` — otherwise the trailing-input error at the recorded location. -/
def Parser.parse (fuel : Nat) (p : Parser) : Option (Except ParseError Expr) :=
  match runGrammar fuel .expressionM p with
  | none => none
  | some (.error e) => some (.error e)
  | some (.ok (expr, p')) =>
      if p'.current ≠ Token.Eof then
        some (.error ⟨"Expected end of input, got " ++ p'.current.debugStr,
          p'.current_location⟩)
      else some (.ok expr)

/-- Fuel that strictly exceeds the recursion depth of any parse of `input`:
every production either consumes a character before recursing or sits at most
a constant number of calls above one that does. -/
def defaultFuel (input : String) : Nat := 8 * input.length + 16

/-- End-to-end parsing as the driver performs it: `Parser::new` followed by
`Parser::parse`, lexical errors lifted by the location-preserving `From`
conversion.  The fuel-exhaustion arm returns a sentinel error; it is
unreachable at this fuel bound, and every theorem below is either about a
concrete input (computed outright) or conditioned on a `.ok` result. -/
def parseString (input : String) : Except ParseError Expr :=
  match Parser.new input with
  | .error e => .error (ParseError.from_lexer_error e)
  | .ok p =>
      match Parser.parse (defaultFuel input) p with
      | some r => r
      | none => .error ⟨"internal: fuel exhausted", ⟨0, 0⟩⟩

/-- Composition `evaluate ∘ parse` (`some` exactly when parsing succeeded). -/
def evaluateParse (input : String) : Option (Except EvalError F) :=
  match parseString input with
  | .error _ => none
  | .ok e => some e.eval

/-- Productions of the specification's grammar (spec §4.2), one tag per
production plus the two left-associative operator loops. -/
inductive SMode where
  | expressionS
  | exprLoopS (left : Expr)
  | termS
  | termLoopS (left : Expr)
  | unaryS
  | primaryS

/-- Reference parser written from the specification's words alone, the
yardstick of the refinement theorem for claim C1.  Spec §4.2:
`expression → term (('+' | '-') term)*` (left-associative, repeatedly
replacing the accumulated left operand with `Op(accumulated, next_operand)`),
`term → unary (('*' | '/') unary)*` (left-associative),
`unary → '-' unary | primary`, `primary → NUMBER | '(' expression ')'`.
It runs over a plain token list, with no locations and no lexer state. -/
def runSpec : Nat → SMode → List Token → Option (Expr × List Token)
  | 0, _, _ => none
  | fuel + 1, mode, ts =>
    match mode with
    | .expressionS =>
        match runSpec fuel .termS ts with
        | none => none
        | some (left, ts1) => runSpec fuel (.exprLoopS left) ts1
    | .exprLoopS left =>
        match ts with
        | .Plus :: ts1 =>
            match runSpec fuel .termS ts1 with
            | none => none
            | some (right, ts2) => runSpec fuel (.exprLoopS (Expr.Add left right)) ts2
        | .Minus :: ts1 =>
            match runSpec fuel .termS ts1 with
            | none => none
            | some (right, ts2) => runSpec fuel (.exprLoopS (Expr.Sub left right)) ts2
        | _ => some (left, ts)
    | .termS =>
        match runSpec fuel .unaryS ts with
        | none => none
        | some (u, ts1) => runSpec fuel (.termLoopS u) ts1
    | .termLoopS left =>
        match ts with
        | .Star :: ts1 =>
            match runSpec fuel .unaryS ts1 with
            | none => none
            | some (right, ts2) => runSpec fuel (.termLoopS (Expr.Mul left right)) ts2
        | .Slash :: ts1 =>
            match runSpec fuel .unaryS ts1 with
            | none => none
            | some (right, ts2) => runSpec fuel (.termLoopS (Expr.Div left right)) ts2
        | _ => some (left, ts)
    | .unaryS =>
        match ts with
        | .Minus :: ts1 =>
            match runSpec fuel .unaryS ts1 with
            | none => none
            | some (e, ts2) => some (Expr.Neg e, ts2)
        | _ => runSpec fuel .primaryS ts
    | .primaryS =>
        match ts with
        | .Number n :: ts1 => some (Expr.Number n, ts1)
        | .LeftParen :: ts1 =>
            match runSpec fuel .expressionS ts1 with
            | none => none
            | some (e, ts2) =>
                match ts2 with
                | .RightParen :: ts3 => some (e, ts3)
                | _ => none
        | _ => none

/-- A full parse in the specification grammar: one expression that consumes
the entire token stream (the trailing-input requirement of spec §4.2). -/
def specParse (fuel : Nat) (ts : List Token) : Option Expr :=
  match runSpec fuel .expressionS ts with
  | some (e, []) => some e
  | _ => none

/-- The specification production corresponding to each parser production. -/
def PMode.toSpec : PMode → SMode
  | .expressionM => .expressionS
  | .exprLoopM l => .exprLoopS l
  | .termM => .termS
  | .termLoopM l => .termLoopS l
  | .unaryM => .unaryS
  | .primaryM => .primaryS

/-- Whether the accumulated operand carried by a production mode is free of
`Pow` nodes (trivially true for the modes that carry none). -/
def PMode.inputPowFree : PMode → Bool
  | .exprLoopM l => l.powFree
  | .termLoopM l => l.powFree
  | _ => true

/-- The token stream a lexer state produces: `LexTo l ts` holds when
successive `next_token` calls starting from `l` succeed, yielding exactly the
tokens of `ts` and then `Eof`.  This is the pull-based stream of spec §6,
with the per-token locations dropped. -/
inductive LexTo : Lexer → List Token → Prop where
  | eof : ∀ {l : Lexer} {loc l'}, l.next_token = .ok ((Token.Eof, loc), l') → LexTo l []
  | cons : ∀ {l : Lexer} {t loc l' ts}, l.next_token = .ok ((t, loc), l') →
      t ≠ Token.Eof → LexTo l' ts → LexTo l (t :: ts)

/-- Relation between a parser state and the spec-level token stream it still
has to consume: the lookahead token (unless it is `Eof`) followed by whatever
the wrapped lexer produces. -/
def StreamOf (p : Parser) (ts : List Token) : Prop :=
  (p.current = Token.Eof ∧ ts = []) ∨
    (p.current ≠ Token.Eof ∧ ∃ rest, ts = p.current :: rest ∧ LexTo p.lexer rest)

end ExprEval


namespace ExprEval

/-! ### Helper lemmas -/

theorem kindEq_rightParen {t : Token} (h : t.kindEq Token.RightParen = true) :
    t = Token.RightParen := by
  cases t <;> first | rfl | simp [Token.kindEq] at h

theorem advance_ok {p : Parser} {t : Token} {p' : Parser} (h : p.advance = .ok (t, p')) :
    t = p.current ∧ ∃ tok loc lx', p.lexer.next_token = .ok ((tok, loc), lx') ∧
      p' = ⟨lx', tok, p.lexer.location⟩ := by
  unfold Parser.advance at h
  cases hn : p.lexer.next_token with
  | error e => rw [hn] at h; simp at h
  | ok r =>
    obtain ⟨⟨tok, loc⟩, lx'⟩ := r
    rw [hn] at h
    simp at h
    exact ⟨h.1.symm, tok, loc, lx', rfl, h.2.symm⟩

theorem advance_stream {p : Parser} {t : Token} {p' : Parser} {ts' : List Token}
    (hne : p.current ≠ Token.Eof) (h : p.advance = .ok (t, p'))
    (hs : StreamOf p' ts') : t = p.current ∧ StreamOf p (p.current :: ts') := by
  obtain ⟨ht, tok, loc, lx', hn, hp'⟩ := advance_ok h
  subst hp'
  refine ⟨ht, Or.inr ⟨hne, ts', rfl, ?_⟩⟩
  rcases hs with ⟨hcur, hts⟩ | ⟨hcur, rest, hts, hlx⟩
  · subst hts
    have htok : tok = Token.Eof := hcur
    subst htok
    exact LexTo.eof hn
  · subst hts
    have htok : tok ≠ Token.Eof := hcur
    exact LexTo.cons hn htok hlx

theorem expect_rightParen_ok {p : Parser} {u : Unit} {p' : Parser}
    (h : p.expect_and_advance Token.RightParen = .ok (u, p')) :
    p.current = Token.RightParen ∧ p.advance = .ok (Token.RightParen, p') := by
  unfold Parser.expect_and_advance at h
  by_cases hc : p.check Token.RightParen
  · rw [if_pos hc] at h
    have hcur : p.current = Token.RightParen := kindEq_rightParen hc
    cases ha : p.advance with
    | error e => rw [ha] at h; simp at h
    | ok r =>
      obtain ⟨t0, p0⟩ := r
      rw [ha] at h
      simp at h
      subst h
      obtain ⟨ht0, _⟩ := advance_ok ha
      exact ⟨hcur, by rw [ht0, hcur]⟩
  · rw [if_neg hc] at h
    simp at h

theorem stream_nil_of_eof {p : Parser} {ts : List Token} (h : StreamOf p ts)
    (he : p.current = Token.Eof) : ts = [] := by
  rcases h with ⟨_, h⟩ | ⟨hne, _, _, _⟩
  · exact h
  · exact absurd he hne

theorem stream_cons_of_ne {p : Parser} {ts : List Token} (h : StreamOf p ts)
    (hne : p.current ≠ Token.Eof) : ∃ rest, ts = p.current :: rest ∧ LexTo p.lexer rest := by
  rcases h with ⟨he, _⟩ | ⟨_, rest, hts, hlx⟩
  · exact absurd he hne
  · exact ⟨rest, hts, hlx⟩

theorem new_stream {s : String} {p : Parser} (h : Parser.new s = .ok p) {ts : List Token}
    (hs : StreamOf p ts) : LexTo (Lexer.new s) ts := by
  simp only [Parser.new] at h
  cases hn : (Lexer.new s).next_token with
  | error e => rw [hn] at h; simp at h
  | ok r =>
    obtain ⟨⟨tok, loc⟩, lx'⟩ := r
    rw [hn] at h
    simp at h
    subst h
    rcases hs with ⟨hcur, hts⟩ | ⟨hne, rest, hts, hlx⟩
    · subst hts
      have htok : tok = Token.Eof := hcur
      subst htok
      exact LexTo.eof hn
    · subst hts
      have htok : tok ≠ Token.Eof := hne
      exact LexTo.cons hn htok hlx

theorem runGrammar_powFree :
    ∀ fuel mode p e p', mode.inputPowFree = true →
      runGrammar fuel mode p = some (.ok (e, p')) → e.powFree = true := by
  intro fuel
  induction fuel with
  | zero => intro mode p e p' _ h; simp [runGrammar] at h
  | succ fuel ih =>
    intro mode p e p' hm h
    cases mode with
    | expressionM =>
        simp only [runGrammar] at h
        rcases hterm : runGrammar fuel .termM p with _ | (e0 | ⟨left, p1⟩)
        · simp only [hterm] at h
          simp at h
        · simp only [hterm] at h
          simp at h
        · simp only [hterm] at h
          have hleft : left.powFree = true := ih .termM p left p1 rfl hterm
          exact ih (.exprLoopM left) p1 e p' hleft h
    | exprLoopM left =>
        have hleft : left.powFree = true := hm
        simp only [runGrammar] at h
        cases hc : p.current
        case Plus =>
          simp only [hc] at h
          rcases ha : p.advance with e0 | ⟨t1, p1⟩
          · simp only [ha] at h
            simp at h
          · simp only [ha] at h
            rcases hterm : runGrammar fuel .termM p1 with _ | (e0 | ⟨right, p2⟩)
            · simp only [hterm] at h
              simp at h
            · simp only [hterm] at h
              simp at h
            · simp only [hterm] at h
              have hright : right.powFree = true := ih .termM p1 right p2 rfl hterm
              refine ih (.exprLoopM (Expr.add left right)) p2 e p' ?_ h
              simp [PMode.inputPowFree, Expr.add, Expr.powFree, hleft, hright]
        case Minus =>
          simp only [hc] at h
          rcases ha : p.advance with e0 | ⟨t1, p1⟩
          · simp only [ha] at h
            simp at h
          · simp only [ha] at h
            rcases hterm : runGrammar fuel .termM p1 with _ | (e0 | ⟨right, p2⟩)
            · simp only [hterm] at h
              simp at h
            · simp only [hterm] at h
              simp at h
            · simp only [hterm] at h
              have hright : right.powFree = true := ih .termM p1 right p2 rfl hterm
              refine ih (.exprLoopM (Expr.sub left right)) p2 e p' ?_ h
              simp [PMode.inputPowFree, Expr.sub, Expr.powFree, hleft, hright]
        all_goals
          simp only [hc] at h
          simp at h
          obtain ⟨rfl, rfl⟩ := h
          exact hleft
    | termM =>
        simp only [runGrammar] at h
        rcases hu : runGrammar fuel .unaryM p with _ | (e0 | ⟨u, p1⟩)
        · simp only [hu] at h
          simp at h
        · simp only [hu] at h
          simp at h
        · simp only [hu] at h
          have hufree : u.powFree = true := ih .unaryM p u p1 rfl hu
          exact ih (.termLoopM u) p1 e p' hufree h
    | termLoopM left =>
        have hleft : left.powFree = true := hm
        simp only [runGrammar] at h
        cases hc : p.current
        case Star =>
          simp only [hc] at h
          rcases ha : p.advance with e0 | ⟨t1, p1⟩
          · simp only [ha] at h
            simp at h
          · simp only [ha] at h
            rcases hu : runGrammar fuel .unaryM p1 with _ | (e0 | ⟨right, p2⟩)
            · simp only [hu] at h
              simp at h
            · simp only [hu] at h
              simp at h
            · simp only [hu] at h
              have hright : right.powFree = true := ih .unaryM p1 right p2 rfl hu
              refine ih (.termLoopM (Expr.mul left right)) p2 e p' ?_ h
              simp [PMode.inputPowFree, Expr.mul, Expr.powFree, hleft, hright]
        case Slash =>
          simp only [hc] at h
          rcases ha : p.advance with e0 | ⟨t1, p1⟩
          · simp only [ha] at h
            simp at h
          · simp only [ha] at h
            rcases hu : runGrammar fuel .unaryM p1 with _ | (e0 | ⟨right, p2⟩)
            · simp only [hu] at h
              simp at h
            · simp only [hu] at h
              simp at h
            · simp only [hu] at h
              have hright : right.powFree = true := ih .unaryM p1 right p2 rfl hu
              refine ih (.termLoopM (Expr.div left right)) p2 e p' ?_ h
              simp [PMode.inputPowFree, Expr.div, Expr.powFree, hleft, hright]
        all_goals
          simp only [hc] at h
          simp at h
          obtain ⟨rfl, rfl⟩ := h
          exact hleft
    | unaryM =>
        simp only [runGrammar] at h
        by_cases hmin : p.current = Token.Minus
        · rw [if_pos hmin] at h
          rcases ha : p.advance with e0 | ⟨t1, p1⟩
          · simp only [ha] at h
            simp at h
          · simp only [ha] at h
            rcases hu : runGrammar fuel .unaryM p1 with _ | (e0 | ⟨e1, p2⟩)
            · simp only [hu] at h
              simp at h
            · simp only [hu] at h
              simp at h
            · simp only [hu] at h
              have h1 : e1.powFree = true := ih .unaryM p1 e1 p2 rfl hu
              simp at h
              obtain ⟨rfl, rfl⟩ := h
              simpa [Expr.neg, Expr.powFree] using h1
        · rw [if_neg hmin] at h
          exact ih .primaryM p e p' rfl h
    | primaryM =>
        simp only [runGrammar] at h
        cases hc : p.current
        case Number n =>
          simp only [hc] at h
          rcases ha : p.advance with e0 | ⟨t1, p1⟩
          · simp only [ha] at h
            simp at h
          · simp only [ha] at h
            simp at h
            obtain ⟨rfl, rfl⟩ := h
            simp [Expr.number, Expr.powFree]
        case LeftParen =>
          simp only [hc] at h
          rcases ha : p.advance with e0 | ⟨t1, p1⟩
          · simp only [ha] at h
            simp at h
          · simp only [ha] at h
            rcases he : runGrammar fuel .expressionM p1 with _ | (e0 | ⟨e1, p2⟩)
            · simp only [he] at h
              simp at h
            · simp only [he] at h
              simp at h
            · simp only [he] at h
              rcases hx : p2.expect_and_advance Token.RightParen with e2 | ⟨u, p3⟩
              · simp only [hx] at h
                simp at h
              · simp only [hx] at h
                simp at h
                obtain ⟨rfl, rfl⟩ := h
                exact ih .expressionM p1 e1 p2 rfl he
        all_goals
          simp only [hc] at h
          simp at h


theorem runGrammar_toSpec :
    ∀ fuel mode p e p', runGrammar fuel mode p = some (.ok (e, p')) →
      ∀ ts', StreamOf p' ts' →
      ∃ ts, StreamOf p ts ∧ runSpec fuel mode.toSpec ts = some (e, ts') := by
  intro fuel
  induction fuel with
  | zero => intro mode p e p' h; simp [runGrammar] at h
  | succ fuel ih =>
    intro mode p e p' h ts' hs'
    cases mode with
    | expressionM =>
        simp only [runGrammar] at h
        rcases hterm : runGrammar fuel .termM p with _ | (e0 | ⟨left, p1⟩)
        · simp only [hterm] at h; simp at h
        · simp only [hterm] at h; simp at h
        · simp only [hterm] at h
          obtain ⟨ts1, hs1, hspec1⟩ := ih (.exprLoopM left) p1 e p' h ts' hs'
          obtain ⟨ts0, hs0, hspec0⟩ := ih .termM p left p1 hterm ts1 hs1
          refine ⟨ts0, hs0, ?_⟩
          simp only [PMode.toSpec] at hspec0 hspec1 ⊢
          simp only [runSpec, hspec0]
          exact hspec1
    | exprLoopM left =>
        simp only [runGrammar] at h
        cases hc : p.current
        case Plus =>
          simp only [hc] at h
          rcases ha : p.advance with e0 | ⟨t1, p1⟩
          · simp only [ha] at h; simp at h
          · simp only [ha] at h
            rcases hterm : runGrammar fuel .termM p1 with _ | (e0 | ⟨right, p2⟩)
            · simp only [hterm] at h; simp at h
            · simp only [hterm] at h; simp at h
            · simp only [hterm] at h
              obtain ⟨ts2, hs2, hspec2⟩ := ih (.exprLoopM (Expr.add left right)) p2 e p' h ts' hs'
              obtain ⟨ts1, hs1, hspec1⟩ := ih .termM p1 right p2 hterm ts2 hs2
              obtain ⟨-, hs0⟩ := advance_stream (by rw [hc]; simp) ha hs1
              refine ⟨p.current :: ts1, hs0, ?_⟩
              rw [hc]
              simp only [PMode.toSpec] at hspec1 hspec2 ⊢
              simp only [runSpec, hspec1]
              simpa [Expr.add] using hspec2
        case Minus =>
          simp only [hc] at h
          rcases ha : p.advance with e0 | ⟨t1, p1⟩
          · simp only [ha] at h; simp at h
          · simp only [ha] at h
            rcases hterm : runGrammar fuel .termM p1 with _ | (e0 | ⟨right, p2⟩)
            · simp only [hterm] at h; simp at h
            · simp only [hterm] at h; simp at h
            · simp only [hterm] at h
              obtain ⟨ts2, hs2, hspec2⟩ := ih (.exprLoopM (Expr.sub left right)) p2 e p' h ts' hs'
              obtain ⟨ts1, hs1, hspec1⟩ := ih .termM p1 right p2 hterm ts2 hs2
              obtain ⟨-, hs0⟩ := advance_stream (by rw [hc]; simp) ha hs1
              refine ⟨p.current :: ts1, hs0, ?_⟩
              rw [hc]
              simp only [PMode.toSpec] at hspec1 hspec2 ⊢
              simp only [runSpec, hspec1]
              simpa [Expr.sub] using hspec2
        all_goals
          simp only [hc] at h
          simp at h
          obtain ⟨rfl, rfl⟩ := h
          refine ⟨ts', hs', ?_⟩
          simp only [PMode.toSpec]
          first
          | (rw [stream_nil_of_eof hs' hc]; simp [runSpec])
          | (obtain ⟨rest, hrest, -⟩ := stream_cons_of_ne hs' (by rw [hc]; simp)
             rw [hrest, hc]
             simp [runSpec])
    | termM =>
        simp only [runGrammar] at h
        rcases hu : runGrammar fuel .unaryM p with _ | (e0 | ⟨u, p1⟩)
        · simp only [hu] at h; simp at h
        · simp only [hu] at h; simp at h
        · simp only [hu] at h
          obtain ⟨ts1, hs1, hspec1⟩ := ih (.termLoopM u) p1 e p' h ts' hs'
          obtain ⟨ts0, hs0, hspec0⟩ := ih .unaryM p u p1 hu ts1 hs1
          refine ⟨ts0, hs0, ?_⟩
          simp only [PMode.toSpec] at hspec0 hspec1 ⊢
          simp only [runSpec, hspec0]
          exact hspec1
    | termLoopM left =>
        simp only [runGrammar] at h
        cases hc : p.current
        case Star =>
          simp only [hc] at h
          rcases ha : p.advance with e0 | ⟨t1, p1⟩
          · simp only [ha] at h; simp at h
          · simp only [ha] at h
            rcases hu : runGrammar fuel .unaryM p1 with _ | (e0 | ⟨right, p2⟩)
            · simp only [hu] at h; simp at h
            · simp only [hu] at h; simp at h
            · simp only [hu] at h
              obtain ⟨ts2, hs2, hspec2⟩ := ih (.termLoopM (Expr.mul left right)) p2 e p' h ts' hs'
              obtain ⟨ts1, hs1, hspec1⟩ := ih .unaryM p1 right p2 hu ts2 hs2
              obtain ⟨-, hs0⟩ := advance_stream (by rw [hc]; simp) ha hs1
              refine ⟨p.current :: ts1, hs0, ?_⟩
              rw [hc]
              simp only [PMode.toSpec] at hspec1 hspec2 ⊢
              simp only [runSpec, hspec1]
              simpa [Expr.mul] using hspec2
        case Slash =>
          simp only [hc] at h
          rcases ha : p.advance with e0 | ⟨t1, p1⟩
          · simp only [ha] at h; simp at h
          · simp only [ha] at h
            rcases hu : runGrammar fuel .unaryM p1 with _ | (e0 | ⟨right, p2⟩)
            · simp only [hu] at h; simp at h
            · simp only [hu] at h; simp at h
            · simp only [hu] at h
              obtain ⟨ts2, hs2, hspec2⟩ := ih (.termLoopM (Expr.div left right)) p2 e p' h ts' hs'
              obtain ⟨ts1, hs1, hspec1⟩ := ih .unaryM p1 right p2 hu ts2 hs2
              obtain ⟨-, hs0⟩ := advance_stream (by rw [hc]; simp) ha hs1
              refine ⟨p.current :: ts1, hs0, ?_⟩
              rw [hc]
              simp only [PMode.toSpec] at hspec1 hspec2 ⊢
              simp only [runSpec, hspec1]
              simpa [Expr.div] using hspec2
        all_goals
          simp only [hc] at h
          simp at h
          obtain ⟨rfl, rfl⟩ := h
          refine ⟨ts', hs', ?_⟩
          simp only [PMode.toSpec]
          first
          | (rw [stream_nil_of_eof hs' hc]; simp [runSpec])
          | (obtain ⟨rest, hrest, -⟩ := stream_cons_of_ne hs' (by rw [hc]; simp)
             rw [hrest, hc]
             simp [runSpec])
    | unaryM =>
        simp only [runGrammar] at h
        by_cases hmin : p.current = Token.Minus
        · rw [if_pos hmin] at h
          rcases ha : p.advance with e0 | ⟨t1, p1⟩
          · simp only [ha] at h; simp at h
          · simp only [ha] at h
            rcases hu : runGrammar fuel .unaryM p1 with _ | (e0 | ⟨e1, p2⟩)
            · simp only [hu] at h; simp at h
            · simp only [hu] at h; simp at h
            · simp only [hu] at h
              simp at h
              obtain ⟨rfl, rfl⟩ := h
              obtain ⟨ts1, hs1, hspec1⟩ := ih .unaryM p1 e1 p2 hu ts' hs'
              obtain ⟨-, hs0⟩ := advance_stream (by rw [hmin]; simp) ha hs1
              refine ⟨p.current :: ts1, hs0, ?_⟩
              rw [hmin]
              simp only [PMode.toSpec] at hspec1 ⊢
              simp [runSpec, hspec1, Expr.neg]
        · rw [if_neg hmin] at h
          obtain ⟨ts0, hs0, hspec0⟩ := ih .primaryM p e p' h ts' hs'
          refine ⟨ts0, hs0, ?_⟩
          simp only [PMode.toSpec] at hspec0 ⊢
          by_cases he : p.current = Token.Eof
          · rw [stream_nil_of_eof hs0 he] at hspec0 ⊢
            simp [runSpec, hspec0]
          · obtain ⟨rest, hrest, -⟩ := stream_cons_of_ne hs0 he
            rw [hrest] at hspec0 ⊢
            cases hcc : p.current
            all_goals
              first
              | exact absurd hcc hmin
              | ((try rw [hcc] at hspec0)
                 simp [runSpec, hspec0])
    | primaryM =>
        simp only [runGrammar] at h
        cases hc : p.current
        case Number n =>
          simp only [hc] at h
          rcases ha : p.advance with e0 | ⟨t1, p1⟩
          · simp only [ha] at h; simp at h
          · simp only [ha] at h
            simp at h
            obtain ⟨rfl, rfl⟩ := h
            obtain ⟨-, hs0⟩ := advance_stream (by rw [hc]; simp) ha hs'
            refine ⟨p.current :: ts', hs0, ?_⟩
            rw [hc]
            simp [runSpec, PMode.toSpec, Expr.number]
        case LeftParen =>
          simp only [hc] at h
          rcases ha : p.advance with e0 | ⟨t1, p1⟩
          · simp only [ha] at h; simp at h
          · simp only [ha] at h
            rcases he : runGrammar fuel .expressionM p1 with _ | (e0 | ⟨e1, p2⟩)
            · simp only [he] at h; simp at h
            · simp only [he] at h; simp at h
            · simp only [he] at h
              rcases hx : p2.expect_and_advance Token.RightParen with e2 | ⟨u, p3⟩
              · simp only [hx] at h; simp at h
              · simp only [hx] at h
                simp at h
                obtain ⟨rfl, rfl⟩ := h
                obtain ⟨hrp, hadv2⟩ := expect_rightParen_ok hx
                obtain ⟨-, hs2⟩ := advance_stream (by rw [hrp]; simp) hadv2 hs'
                rw [hrp] at hs2
                obtain ⟨ts1, hs1, hspec1⟩ := ih .expressionM p1 e1 p2 he (Token.RightParen :: ts') hs2
                obtain ⟨-, hs0⟩ := advance_stream (by rw [hc]; simp) ha hs1
                refine ⟨p.current :: ts1, hs0, ?_⟩
                rw [hc]
                simp only [PMode.toSpec] at hspec1 ⊢
                simp [runSpec, hspec1]
        all_goals
          simp only [hc] at h
          simp at h

theorem parseString_ok_elim {s : String} {e : Expr} (h : parseString s = .ok e) :
    ∃ p p', Parser.new s = .ok p ∧
      runGrammar (defaultFuel s) .expressionM p = some (.ok (e, p')) ∧
      p'.current = Token.Eof := by
  unfold parseString at h
  cases hnew : Parser.new s with
  | error e0 => rw [hnew] at h; simp at h
  | ok p =>
    rw [hnew] at h
    unfold Parser.parse at h
    rcases hrun : runGrammar (defaultFuel s) .expressionM p with _ | (e0 | ⟨expr, p'⟩)
    · simp only [hrun] at h; simp at h
    · simp only [hrun] at h; simp at h
    · simp only [hrun] at h
      by_cases heof : p'.current = Token.Eof
      · rw [if_neg (by simpa using heof)] at h
        simp at h
        subst h
        exact ⟨p, p', rfl, hrun, heof⟩
      · rw [if_pos (by simpa using heof)] at h
        simp at h

theorem parseString_toSpec {s : String} {e : Expr} (h : parseString s = .ok e) :
    ∃ ts, LexTo (Lexer.new s) ts ∧ specParse (defaultFuel s) ts = some e := by
  obtain ⟨p, p', hnew, hrun, heof⟩ := parseString_ok_elim h
  have hs' : StreamOf p' [] := Or.inl ⟨heof, rfl⟩
  obtain ⟨ts, hs, hspec⟩ := runGrammar_toSpec (defaultFuel s) .expressionM p e p' hrun [] hs'
  refine ⟨ts, new_stream hnew hs, ?_⟩
  unfold specParse
  simp only [PMode.toSpec] at hspec
  rw [hspec]


/-! ### Claim theorems -/

/-- Claim C1: for every input string on which `parse` succeeds, the tree it builds
is exactly the tree of the specification's left-associative,
precedence-respecting grammar over the lexed token stream (so `evaluate` of
the two coincides definitionally); in particular
`evaluate(parse("2 + 3 * 4")) = Ok(14.0)` and
`evaluate(parse("(2 + 3) * 4")) = Ok(20.0)`. -/
theorem C1_parse_respects_precedence :
    (∀ (s : String) (e : Expr), parseString s = .ok e →
        ∃ ts, LexTo (Lexer.new s) ts ∧ specParse (defaultFuel s) ts = some e) ∧
    evaluateParse "2 + 3 * 4" = some (.ok (F.finite ⟨14, 1⟩)) ∧
    evaluateParse "(2 + 3) * 4" = some (.ok (F.finite ⟨20, 1⟩)) := by
  refine ⟨fun s e h => parseString_toSpec h, by decide, by decide⟩

/-- Witness for C1 at the concrete input `"2 + 3 * 4"`. -/
theorem C1_witness :
    ∃ ts, LexTo (Lexer.new "2 + 3 * 4") ts ∧
      specParse (defaultFuel "2 + 3 * 4") ts = some
        (Expr.Add (.Number (.finite ⟨2, 1⟩))
          (.Mul (.Number (.finite ⟨3, 1⟩)) (.Number (.finite ⟨4, 1⟩)))) :=
  C1_parse_respects_precedence.1 "2 + 3 * 4"
    (Expr.Add (.Number (.finite ⟨2, 1⟩))
      (.Mul (.Number (.finite ⟨3, 1⟩)) (.Number (.finite ⟨4, 1⟩)))) (by decide)

/-- Claim C2: `Div(a, b)` evaluates `b` first; a divisor that compares `== 0.0`
yields `DivisionByZero` regardless of `a` (which is not evaluated: the result
does not depend on it, even when `a` itself would error); an error from `b`
propagates; otherwise `a` is evaluated, divided, and the result checked; in
particular `evaluate(parse("10 / 0")) = Err(DivisionByZero)`. -/
theorem C2_div_evaluates_divisor_first :
    (∀ (a b : Expr) (v : F), b.eval = .ok v → v.ieeeEq F.zero = true →
        (Expr.Div a b).eval = .error .DivisionByZero) ∧
    (∀ (a b : Expr) (e : EvalError), b.eval = .error e → (Expr.Div a b).eval = .error e) ∧
    (∀ (a b : Expr) (v : F), b.eval = .ok v → v.ieeeEq F.zero = false →
        (Expr.Div a b).eval = a.eval >>= fun x => Expr.check_result (x.fdiv v)) ∧
    evaluateParse "10 / 0" = some (.error .DivisionByZero) := by
  refine ⟨?_, ?_, ?_, by decide⟩
  · intro a b v hb hv
    simp only [Expr.eval]
    rw [hb]
    simp [Bind.bind, Except.bind, hv]
  · intro a b e hb
    simp only [Expr.eval]
    rw [hb]
    simp [Bind.bind, Except.bind]
  · intro a b v hb hv
    simp only [Expr.eval]
    rw [hb]
    simp [Bind.bind, Except.bind, hv]

/-- Witness for C2: the divisor is zero and the dividend is an expression
that would itself fail, yet the result is `DivisionByZero`. -/
theorem C2_witness :
    (Expr.Div (Expr.Div (Expr.Number (F.finite ⟨1, 1⟩)) (Expr.Number F.zero))
        (Expr.Number F.zero)).eval = .error .DivisionByZero :=
  C2_div_evaluates_divisor_first.1
    (Expr.Div (Expr.Number (F.finite ⟨1, 1⟩)) (Expr.Number F.zero))
    (Expr.Number F.zero) F.zero rfl rfl

/-- Claim C3: `check_result` turns positive infinity into `Overflow`, negative
infinity into `Underflow`, and passes every other value (including `NaN`)
through; literal `Number` nodes are returned without the check; a product
exceeding `f64::MAX` gives `Overflow` and its negative mirror `Underflow`. -/
theorem C3_overflow_underflow_check :
    Expr.check_result F.posInf = .error .Overflow ∧
    Expr.check_result F.negInf = .error .Underflow ∧
    (∀ x : F, x ≠ F.posInf → x ≠ F.negInf → Expr.check_result x = .ok x) ∧
    Expr.check_result F.nan = .ok F.nan ∧
    (∀ v : F, (Expr.Number v).eval = .ok v) ∧
    (Expr.Mul (.Number (.finite ⟨maxFiniteNum, 1⟩)) (.Number (.finite ⟨2, 1⟩))).eval =
      .error .Overflow ∧
    (Expr.Mul (.Number (.finite ⟨-maxFiniteNum, 1⟩)) (.Number (.finite ⟨2, 1⟩))).eval =
      .error .Underflow := by
  refine ⟨by decide, by decide, ?_, by decide, fun v => rfl, by decide, by decide⟩
  intro x h1 h2
  cases x <;> first | rfl | exact absurd rfl h1 | exact absurd rfl h2

/-- Witness for C3: an ordinary finite value passes the check unchanged. -/
theorem C3_witness :
    Expr.check_result (F.finite ⟨3, 1⟩) = .ok (F.finite ⟨3, 1⟩) :=
  C3_overflow_underflow_check.2.2.1 (F.finite ⟨3, 1⟩) (by decide) (by decide)

/-- Claim C4, counterexample: in `"2 + + 3"` the unexpected second `+` sits at
line 1, column 5 (as the lexer reports it), but the `ParseError` carries
column 4 — the position right after the previous token, before the
intervening space — so the error does not carry the location of the
unexpected token itself. -/
theorem C4_counterexample :
    parseString "2 + + 3" = .error ⟨"Expected expression, got Plus", ⟨1, 4⟩⟩ ∧
    nthNext 2 (Lexer.new "2 + + 3") = .ok ((Token.Plus, ⟨1, 5⟩), ⟨[' ', '3'], 1, 6⟩) ∧
    (⟨1, 4⟩ : Location) ≠ ⟨1, 5⟩ :=
  ⟨by decide, by decide, by decide⟩

/-- Claim C4, amended: a syntactic error carries the parser's recorded
`current_location`, which is the lexer position immediately after the
previous token — recorded before any whitespace in front of the unexpected
token — while the token's own location is the post-whitespace position, so
the two coincide exactly when no whitespace precedes the unexpected token. -/
theorem C4_error_location_is_recorded_location :
    (∀ (p : Parser) (expected : Token), p.check expected = false →
        p.expect_and_advance expected =
          .error ⟨"Expected " ++ expected.debugStr ++ ", got " ++ p.current.debugStr,
            p.current_location⟩) ∧
    (∀ (p : Parser) (t : Token) (p' : Parser), p.advance = .ok (t, p') →
        p'.current_location = p.lexer.location) ∧
    (∀ (fuel : Nat) (p : Parser) (expr : Expr) (p' : Parser),
        runGrammar fuel .expressionM p = some (.ok (expr, p')) → p'.current ≠ Token.Eof →
        Parser.parse fuel p =
          some (.error ⟨"Expected end of input, got " ++ p'.current.debugStr,
            p'.current_location⟩)) ∧
    (∀ (l : Lexer) (t : Token) (loc : Location) (l' : Lexer),
        l.next_token = .ok ((t, loc), l') → loc = (l.skip_whitespace).location) := by
  refine ⟨?_, ?_, ?_, ?_⟩
  · intro p expected hch
    unfold Parser.expect_and_advance
    simp [hch]
  · intro p t p' h
    obtain ⟨-, tok, loc, lx', hn, hp'⟩ := advance_ok h
    subst hp'
    rfl
  · intro fuel p expr p' hrun hne
    unfold Parser.parse
    simp only [hrun]
    rw [if_pos hne]
  · intro l t loc l' hn
    simp only [Lexer.next_token] at hn
    cases hc : (l.skip_whitespace).chars with
    | nil =>
      simp only [hc] at hn
      simp at hn
      exact hn.1.2.symm
    | cons c rest =>
      simp only [hc] at hn
      by_cases hd : '0' ≤ c ∧ c ≤ '9'
      · rw [if_pos hd] at hn
        cases hr : (l.skip_whitespace).read_number with
        | error e => rw [hr] at hn; simp at hn
        | ok rv =>
          obtain ⟨v, l2⟩ := rv
          rw [hr] at hn
          simp at hn
          exact hn.1.2.symm
      · rw [if_neg hd] at hn
        split_ifs at hn <;> simp at hn <;> exact hn.1.2.symm

/-- Witness for C4 at a concrete mismatch: expecting `RightParen` while the
lookahead is `Eof` produces the message and the recorded location. -/
theorem C4_witness :
    (⟨Lexer.new "", Token.Eof, ⟨1, 1⟩⟩ : Parser).expect_and_advance Token.RightParen =
      .error ⟨"Expected RightParen, got Eof", ⟨1, 1⟩⟩ :=
  C4_error_location_is_recorded_location.1 ⟨Lexer.new "", Token.Eof, ⟨1, 1⟩⟩
    Token.RightParen rfl

/-- Claim C5: whatever string `parse` accepts, the resulting tree contains no
`Pow` node — exponentiation is unreachable from parseable input. -/
theorem C5_parse_never_builds_pow {s : String} {e : Expr}
    (h : parseString s = .ok e) : e.powFree = true := by
  obtain ⟨p, p', -, hrun, -⟩ := parseString_ok_elim h
  exact runGrammar_powFree (defaultFuel s) .expressionM p e p' rfl hrun

/-- Witness for C5 at the concrete input `"2 + 3"`. -/
theorem C5_witness :
    (Expr.Add (.Number (.finite ⟨2, 1⟩)) (.Number (.finite ⟨3, 1⟩))).powFree = true :=
  C5_parse_never_builds_pow (s := "2 + 3") (by decide)

/-- Claim C6: parsing `"(2 + 3"` fails with a message naming the missing right
parenthesis, at the end of the input (line 1, column `length + 1`). -/
theorem C6_unbalanced_paren :
    parseString "(2 + 3" =
      .error ⟨"Expected RightParen, got Eof", ⟨1, "(2 + 3".length + 1⟩⟩ := by decide

/-- Claim C7: the lexer starts at (1, 1); consuming a newline increments the line
and resets the column to 1, any other character increments the column; for
`"1 +\n2"` the token `Number(2.0)` is reported at line 2. -/
theorem C7_location_tracking :
    (∀ s : String, Lexer.new s = ⟨s.toList, 1, 1⟩) ∧
    (∀ (l : Lexer) (c : Char) (rest : List Char), l.chars = c :: rest →
        l.advance_char = (some c,
          ⟨rest, if c = Char.ofNat 10 then l.line + 1 else l.line,
            if c = Char.ofNat 10 then 1 else l.column + 1⟩)) ∧
    nthNext 2 (Lexer.new "1 +\n2") =
      .ok ((Token.Number (F.finite ⟨2, 1⟩), ⟨2, 1⟩), ⟨[], 2, 2⟩) := by
  refine ⟨fun s => rfl, ?_, by decide⟩
  intro l c rest h
  unfold Lexer.advance_char
  rw [h]
  by_cases hc : c = Char.ofNat 10 <;> simp [advancePos, hc]

/-- Witness for C7: consuming a newline from the start state moves the
position to line 2, column 1. -/
theorem C7_witness :
    (Lexer.new "\nx").advance_char = (some (Char.ofNat 10), ⟨['x'], 2, 1⟩) := by
  have h := C7_location_tracking.2.1 (Lexer.new "\nx") (Char.ofNat 10) ['x'] (by decide)
  simpa using h

/-- Claim C8: a character that is not whitespace, a digit, or one of the six
operator and parenthesis symbols makes `next_token` fail at exactly that
character's location; lexing `"2 + @"` gives `Number(2.0)`, `Plus`, then a
lexical error at line 1, column 5. -/
theorem C8_unexpected_character :
    (∀ (l : Lexer) (c : Char) (rest : List Char),
        (l.skip_whitespace).chars = c :: rest →
        ¬('0' ≤ c ∧ c ≤ '9') →
        c ≠ '+' → c ≠ '-' → c ≠ '*' → c ≠ '/' → c ≠ '(' → c ≠ ')' →
        l.next_token = .error ⟨unexpectedCharMsg c, (l.skip_whitespace).location⟩) ∧
    nthNext 0 (Lexer.new "2 + @") =
      .ok ((Token.Number (F.finite ⟨2, 1⟩), ⟨1, 1⟩), ⟨[' ', '+', ' ', '@'], 1, 2⟩) ∧
    nthNext 1 (Lexer.new "2 + @") = .ok ((Token.Plus, ⟨1, 3⟩), ⟨[' ', '@'], 1, 4⟩) ∧
    nthNext 2 (Lexer.new "2 + @") = .error ⟨unexpectedCharMsg '@', ⟨1, 5⟩⟩ := by
  refine ⟨?_, by decide, by decide, by decide⟩
  intro l c rest h hd h1 h2 h3 h4 h5 h6
  simp only [Lexer.next_token]
  rw [h]
  simp [hd, h1, h2, h3, h4, h5, h6]

/-- Witness for C8: the lone character `@` is rejected at (1, 1). -/
theorem C8_witness :
    (Lexer.new "@").next_token = .error ⟨unexpectedCharMsg '@', ⟨1, 1⟩⟩ := by
  have h := C8_unexpected_character.1 (Lexer.new "@") '@' [] (by decide) (by decide)
    (by decide) (by decide) (by decide) (by decide) (by decide) (by decide)
  simpa using h

/-- Claim C9: `parse("--5")` builds `Neg(Neg(Number(5.0)))` and evaluating it
gives `Ok(5.0)`. -/
theorem C9_double_negation :
    parseString "--5" = .ok (Expr.Neg (Expr.Neg (Expr.Number (F.finite ⟨5, 1⟩)))) ∧
    evaluateParse "--5" = some (.ok (F.finite ⟨5, 1⟩)) :=
  ⟨by decide, by decide⟩

/-- Claim C10: dividing by the literal `-0.0` is `DivisionByZero` for every
dividend (the `== 0.0` comparison accepts negative zero), never an
`Overflow`/`Underflow` from an infinite quotient. -/
theorem C10_negative_zero_divisor (a : Expr) :
    (Expr.Div a (Expr.Number F.negZero)).eval = .error .DivisionByZero := by
  simp only [Expr.eval]
  rfl

/-- Witness for C10 at a concrete dividend. -/
theorem C10_witness :
    (Expr.Div (Expr.Number (F.finite ⟨7, 1⟩)) (Expr.Number F.negZero)).eval =
      .error .DivisionByZero :=
  C10_negative_zero_divisor (Expr.Number (F.finite ⟨7, 1⟩))

end ExprEval


